import Mathlib

/-!
Shallow embedding of bdk's coin selection module (src/wallet/coin_selection.rs)
and proofs of the specification claims about it.

The module under verification provides: a cost model turning each weighted
UTXO into an `OutputGroup` (fee plus signed effective value), a change
decision (`decide_change`), a waste metric (`Waste.calculate`), four coin
selection strategies (largest-first, oldest-first, branch-and-bound,
single-random-draw) and an orchestrator (`get_selection`).

External collaborators that live outside the verified source file (the
`FeeRate` numeric type, the script serialization length, the dust-threshold
oracle and the confirmation-height database) are modelled from the spec; each
such definition carries a doc comment saying so.  Everything else is a direct
translation of the Rust source.

Numeric conventions: `u64` quantities become `Nat` (with `Nat` subtraction
standing for `saturating_sub`, and an explicit `% 2^64` where the code uses a
wrapping `as u64` cast), `i64` quantities become `Int`, and the `f32` fee
rate is modelled as a rational number.
-/

/-- Utxo: an unspent transaction output.  Only the fields the coin selection
module reads are modelled: the carried value in satoshis and the id of the
originating transaction (used by the oldest-first strategy's height lookup). -/
structure Utxo where
  txid : Nat
  value : Nat
deriving DecidableEq

/-- WeightedUtxo: a utxo plus the satisfaction weight of its spending script. -/
structure WeightedUtxo where
  satisfaction_weight : Nat
  utxo : Utxo
deriving DecidableEq

/-- Script: modelled from the spec.  The real `bitcoin::Script` lives outside
the verified source; `decide_change` only consumes its consensus-serialized
byte length and its dust threshold (the latter supplied, per the spec, by an
external script-analysis collaborator), so the model carries exactly those
two observables. -/
structure Script where
  ser_len : Nat
  dust_value : Nat
deriving DecidableEq

/-- WeightedScript: the drain (change) script together with the satisfaction
weight needed to later spend an output carrying it. -/
structure WeightedScript where
  script_pubkey : Script
  satisfaction_weight : Nat
deriving DecidableEq

/-- FeeRate: modelled from the spec.  The real type wraps an `f32` rate in
satoshis per virtual byte; the spec requires a deterministic conversion from
weight to fee with ceiling rounding, which is modelled exactly with a
rational rate. -/
structure FeeRate where
  sat_per_vb : ℚ
deriving DecidableEq

/-- Vbytes: modelled from the spec.  Weight units to virtual bytes, rounding
up (the Rust helper computes `(wu as f32 / 4.0).ceil()`). -/
def Vbytes (wu : Nat) : Nat := (wu + 3) / 4

/-- Ceiling division of an integer by a natural number, written with the
Euclidean division so that it evaluates inside the kernel;
`ceilDiv_eq_ceil` below identifies it with the rational ceiling. -/
def ceilDiv (n : ℤ) (d : ℕ) : ℤ := -((-n).ediv d)

/-- FeeRate.fee_vb: modelled from the spec.  Fee for a size in virtual bytes:
rate times size, ceiling-rounded so the computed fee never underpays
(`fee_vb_eq_ceil` below shows this equals `⌈rate * vb⌉`). -/
def FeeRate.fee_vb (r : FeeRate) (vb : Nat) : Nat :=
  (ceilDiv (r.sat_per_vb.num * vb) r.sat_per_vb.den).toNat

/-- FeeRate.fee_wu: modelled from the spec.  Fee for a size in weight units. -/
def FeeRate.fee_wu (r : FeeRate) (wu : Nat) : Nat := r.fee_vb (Vbytes wu)

/-- Base weight of a Txin, not counting the weight needed for satisfying it:
prev_txid (32 bytes) + prev_vout (4 bytes) + sequence (4 bytes), times 4. -/
def TXIN_BASE_WEIGHT : Nat := (32 + 4 + 4) * 4

/-- Long term fee rate, the fixed reference rate used only by the waste
metric (`FeeRate(5.0)` in the source). -/
def LONG_TERM_FEE_RATE : FeeRate := ⟨5⟩

/-- Error cases of the coin selection module that the embedded functions can
produce (`Error::InsufficientFunds`, `Error::BnBTotalTriesExceeded`,
`Error::BnBNoExactMatch`). -/
inductive Error where
  | insufficientFunds (needed : Nat) (available : Nat)
  | bnbTotalTriesExceeded
  | bnbNoExactMatch
deriving DecidableEq

/-- Excess: the disposition of the value remaining after the target and the
input fees are covered. -/
inductive Excess where
  | noChange (dust_threshold : Nat) (remaining_amount : Nat) (change_fee : Nat)
  | change (amount : Nat) (fee : Nat)
deriving DecidableEq

/-- Waste: signed score of a completed selection (`pub struct Waste(pub i64)`). -/
structure Waste where
  score : Int
deriving DecidableEq

/-- OutputGroup: a weighted utxo annotated with the fee to spend it at a given
rate and the resulting signed effective value. -/
structure OutputGroup where
  weighted_utxo : WeightedUtxo
  fee : Nat
  effective_value : Int
deriving DecidableEq

/-- OutputGroup.new: computes the fee from the fixed per-input base weight
plus the utxo's satisfaction weight, and the effective value as the carried
value minus that fee. -/
def OutputGroup.new (weighted_utxo : WeightedUtxo) (fee_rate : FeeRate) : OutputGroup :=
  let fee := fee_rate.fee_wu (TXIN_BASE_WEIGHT + weighted_utxo.satisfaction_weight)
  ⟨weighted_utxo, fee, (weighted_utxo.utxo.value : Int) - (fee : Int)⟩

/-- Database: modelled from the spec.  The only database query the module
performs is the oldest-first strategy's confirmation-height lookup: given a
transaction id it returns the block height if the transaction is confirmed. -/
def Database := Nat → Option Nat

/-- Sum of the effective values of a list of output groups. -/
def effSum (l : List OutputGroup) : Int := (l.map (·.effective_value)).sum

/-- Sum of the fees of a list of output groups. -/
def feeSum (l : List OutputGroup) : Nat := (l.map (·.fee)).sum

/-- Sum of the raw carried values of a list of output groups. -/
def valSum (l : List OutputGroup) : Nat := (l.map (·.weighted_utxo.utxo.value)).sum

/-- CoinSelectionResult: the module's output record. -/
structure CoinSelectionResult where
  selected : List Utxo
  fee_amount : Nat
  excess : Excess
  waste : Waste
deriving DecidableEq

/-- Type of a coin selection strategy, mirroring the
`CoinSelectionAlgorithm::coin_select` trait method: database, optional
output groups, fee rate, target amount, summed available effective value. -/
def Algorithm := Database → List OutputGroup → FeeRate → Nat → Int →
  Except Error (List OutputGroup × Nat)

/-- decide_change: compute the change fee from the serialized drain script
length plus the 8-byte value/length overhead, subtract it (saturating) from
the remaining amount, and return `Change` exactly when the result clears the
script's dust threshold. -/
def decide_change (remaining_amount : Nat) (fee_rate : FeeRate) (drain_script : Script) :
    Excess :=
  let drain_output_len := drain_script.ser_len + 8
  let change_fee := fee_rate.fee_vb drain_output_len
  let drain_val := remaining_amount - change_fee
  if drain_val < drain_script.dust_value then
    .noChange drain_script.dust_value remaining_amount change_fee
  else
    .change drain_val change_fee

/-- Waste.calculate: timing cost (current fee minus long-term fee, summed
over the selected inputs) plus creation cost (the remaining amount for
`NoChange`, or the change fee plus the long-term cost of later spending the
change output for `Change`). -/
def Waste.calculate (selected : List OutputGroup) (drain_script_weight : Nat)
    (excess : Excess) : Except Error Waste :=
  let timing_cost : Int := selected.foldl
    (fun acc utxo =>
      acc + (utxo.fee : Int) -
        (LONG_TERM_FEE_RATE.fee_wu (TXIN_BASE_WEIGHT + utxo.weighted_utxo.satisfaction_weight) : Int))
    0
  let creation_cost : Nat :=
    match excess with
    | .noChange _ remaining_amount _ => remaining_amount
    | .change _ fee => fee + LONG_TERM_FEE_RATE.fee_wu (TXIN_BASE_WEIGHT + drain_script_weight)
  .ok ⟨timing_cost + (creation_cost : Int)⟩

/-- Accumulating pass of `select_sorted_utxos`: take groups from the front
while the running selected raw value is still below the target plus the fees
accumulated so far (this is the Rust `scan` with state
`(selected_amount, fee_amount)`). -/
def selectSortedGo (target_amount : Nat) :
    List OutputGroup → Nat → Nat → List OutputGroup × Nat
  | [], _, fee_amount => ([], fee_amount)
  | output_group :: rest, selected_amount, fee_amount =>
    if selected_amount < target_amount + fee_amount then
      let next := selectSortedGo target_amount rest
        (selected_amount + output_group.weighted_utxo.utxo.value)
        (fee_amount + output_group.fee)
      (output_group :: next.1, next.2)
    else
      ([], fee_amount)

/-- select_sorted_utxos: greedy accumulation over an already-sorted iterator
of output groups; never fails. -/
def select_sorted_utxos (utxos : List OutputGroup) (target_amount : Nat) :
    Except Error (List OutputGroup × Nat) :=
  .ok (selectSortedGo target_amount utxos 0 0)

/-- Comparison used by the largest-first and branch-and-bound sorts
(`sort_unstable_by_key(|og| og.effective_value)`, i.e. ascending). -/
def ogLe (a b : OutputGroup) : Prop := a.effective_value ≤ b.effective_value

instance : DecidableRel ogLe := fun a b =>
  inferInstanceAs (Decidable (a.effective_value ≤ b.effective_value))

instance : IsTotal OutputGroup ogLe := ⟨fun a b => le_total a.effective_value b.effective_value⟩

instance : IsTrans OutputGroup ogLe := ⟨fun _ _ _ => le_trans⟩

/-- LargestFirstCoinSelection.coin_select: sort the optional groups ascending
by effective value, reverse (so largest first), and greedily accumulate. -/
def LargestFirstCoinSelection.coin_select (_database : Database)
    (optional_utxos : List OutputGroup) (_fee_rate : FeeRate) (target_amount : Nat)
    (_available_value : Int) : Except Error (List OutputGroup × Nat) :=
  select_sorted_utxos (List.insertionSort ogLe optional_utxos).reverse target_amount

/-- Sort key of the oldest-first strategy: the confirmation height of the
group's originating transaction, with unknown/unconfirmed transactions
treated as `u32::MAX` so they sort last. -/
def blockheightKey (database : Database) (og : OutputGroup) : Nat :=
  match database og.weighted_utxo.utxo.txid with
  | some blockheight => blockheight
  | none => 4294967295

instance (database : Database) :
    DecidableRel (fun a b : OutputGroup => blockheightKey database a ≤ blockheightKey database b) :=
  fun x y => Nat.decLe (blockheightKey database x) (blockheightKey database y)

/-- OldestFirstCoinSelection.coin_select: sort the optional groups ascending
by confirmation height (the Rust code caches one database lookup per
transaction id; lookups being pure here, that caching fold is behaviorally
the direct lookup), then greedily accumulate. -/
def OldestFirstCoinSelection.coin_select (database : Database)
    (optional_utxos : List OutputGroup) (_fee_rate : FeeRate) (target_amount : Nat)
    (_available_value : Int) : Except Error (List OutputGroup × Nat) :=
  select_sorted_utxos
    (List.insertionSort
      (fun a b => blockheightKey database a ≤ blockheightKey database b) optional_utxos)
    target_amount

/-- Accumulating pass of the single-random-draw strategy: take groups from
the shuffled pool while the accumulated effective value is still below the
target. -/
def srdScan (target_amount : Int) : List OutputGroup → Int → List OutputGroup
  | [], _ => []
  | utxo :: rest, acc_value =>
    if target_amount ≤ acc_value then []
    else utxo :: srdScan target_amount rest (acc_value + utxo.effective_value)

/-- SingleRandomDrawCoinSelection.coin_select: shuffle the pool, then take a
prefix of the shuffled order until the accumulated effective value reaches
the target.  The random shuffle is passed in as a function parameter (the
spec requires the randomness source to be injectable); theorems quantify over
all permutations. -/
def SingleRandomDrawCoinSelection.coin_select (shuffle : List OutputGroup → List OutputGroup)
    (_database : Database) (optional_utxos : List OutputGroup) (_fee_rate : FeeRate)
    (target_amount : Nat) (_available_value : Int) :
    Except Error (List OutputGroup × Nat) :=
  let shuffled := shuffle optional_utxos
  let selected_utxos := srdScan (target_amount : Int) shuffled 0
  .ok (selected_utxos, feeSum selected_utxos)

/-- State of the branch-and-bound depth-first loop.  `current_selection` and
`best_selection` store the Rust boolean vectors reversed: the head of the
list is the most recently pushed decision, so the Rust `push`/`pop`/`last`
operations at the back of the vector become `cons`/tail/head here, and the
entry at the head of a list of length `k+1` decides `optional_utxos[k]`. -/
structure BnbState where
  current_selection : List Bool
  selected_value : Int
  available_value : Int
  best_selection : List Bool
  best_selection_value : Option Int
deriving DecidableEq

/-- Exit conditions of the branch-and-bound loop: an exact match was found
(early break), the iteration budget was exhausted (the `for` loop ran to
completion), the search space was exhausted with a recorded best selection
(break out of backtracking), or the search space was exhausted with nothing
recorded (`return Err(BnBNoExactMatch)`). -/
inductive BnbExit where
  | exactMatch (best : List Bool)
  | budgetExhausted (best : List Bool) (bestValue : Option Int)
  | spaceExhausted (best : List Bool) (bestValue : Option Int)
  | noMatchExit
deriving DecidableEq

/-- Effective value of the group at index `i` of the pool (zero past the end;
the loop invariants show all reachable accesses are in bounds). -/
def effAt (utxos : List OutputGroup) (i : Nat) : Int :=
  match utxos[i]? with
  | some utxo => utxo.effective_value
  | none => 0

/-- Backtracking walk of the branch-and-bound loop: pop every trailing
"excluded" decision, restoring each popped group's effective value to the
available amount. -/
def popFalses (utxos : List OutputGroup) : List Bool → Int → List Bool × Int
  | [], available_value => ([], available_value)
  | true :: rest, available_value => (true :: rest, available_value)
  | false :: rest, available_value =>
    popFalses utxos rest (available_value + effAt utxos rest.length)

/-- Backtracking step of the branch-and-bound loop: pop trailing exclusions;
if the decision stack empties, the search space is exhausted (error if no
best selection was recorded, break otherwise); otherwise flip the most recent
inclusion to an exclusion and deduct its effective value from the selection. -/
def bnbBacktrack (utxos : List OutputGroup) (s : BnbState) : BnbState ⊕ BnbExit :=
  let popped := popFalses utxos s.current_selection s.available_value
  match popped.1 with
  | [] =>
    if s.best_selection = [] then .inr .noMatchExit
    else .inr (.spaceExhausted s.best_selection s.best_selection_value)
  | _ :: rest =>
    .inl { s with
      current_selection := false :: rest
      selected_value := s.selected_value - effAt utxos rest.length
      available_value := popped.2 }

/-- One iteration of the branch-and-bound depth-first loop: prune (backtrack)
when the target is unreachable or overshot beyond the change tolerance;
otherwise, when the selection covers the target, record it as the best
solution if it beats the recorded one, break on an exact match and backtrack
otherwise; otherwise tentatively include the next undecided group, moving its
effective value from the available amount into the selection. -/
def bnbBody (utxos : List OutputGroup) (target_amount cost_of_change : Int)
    (s : BnbState) : BnbState ⊕ BnbExit :=
  if s.selected_value + s.available_value < target_amount ∨
      target_amount + cost_of_change < s.selected_value then
    bnbBacktrack utxos s
  else if target_amount ≤ s.selected_value then
    let replace :=
      match s.best_selection_value with
      | none => true
      | some best_value => decide (s.selected_value < best_value)
    let s1 :=
      if replace then
        { s with
          best_selection := s.current_selection
          best_selection_value := some s.selected_value }
      else s
    if s.selected_value = target_amount then .inr (.exactMatch s1.best_selection)
    else bnbBacktrack utxos s1
  else
    let e := effAt utxos s.current_selection.length
    .inl { s with
      current_selection := true :: s.current_selection
      selected_value := s.selected_value + e
      available_value := s.available_value - e }

/-- Depth-first search loop of the branch-and-bound strategy, fuelled by the
iteration budget: each unit of fuel is one iteration of the Rust
`for _ in 0..BNB_TOTAL_TRIES` loop, so the loop structurally performs at most
as many iterations as it is given fuel. -/
def bnbLoop (utxos : List OutputGroup) (target_amount cost_of_change : Int) :
    Nat → BnbState → BnbExit
  | 0, s => .budgetExhausted s.best_selection s.best_selection_value
  | fuel + 1, s =>
    match bnbBody utxos target_amount cost_of_change s with
    | .inr exitNow => exitNow
    | .inl s1 => bnbLoop utxos target_amount cost_of_change fuel s1

/-- Iteration budget of the branch-and-bound search. -/
def BNB_TOTAL_TRIES : Nat := 100000

/-- Output set of the branch-and-bound strategy: the groups of the (sorted)
pool whose recorded decision is "included" (`best` is stored reversed, so it
is reversed back before zipping with the pool). -/
def bnbSelected (utxos : List OutputGroup) (best : List Bool) : List OutputGroup :=
  (utxos.zip best.reverse).filterMap (fun p => if p.2 then some p.1 else none)

/-- BranchAndBoundCoinSelection.coin_select: sort the pool descending by
effective value, run the fuelled depth-first loop from the empty selection,
and turn the exit condition into a result: `BnBNoExactMatch` when the space
was exhausted with nothing recorded, otherwise `BnBTotalTriesExceeded` when
the recorded best selection is empty, otherwise the groups selected by the
best recorded decision vector with their summed fees.  The cost of change is
the configured change output size priced at the current rate (the Rust code
computes it in `f32` and truncates; rates are nonnegative, where truncation
is the floor). -/
def BranchAndBoundCoinSelection.coin_select (size_of_change : Nat) (_database : Database)
    (optional_utxos : List OutputGroup) (fee_rate : FeeRate) (target_amount : Nat)
    (available_value : Int) : Except Error (List OutputGroup × Nat) :=
  let target : Int := (target_amount : Int)
  let cost_of_change : Int := (fee_rate.sat_per_vb.num * size_of_change).ediv fee_rate.sat_per_vb.den
  let sorted := (List.insertionSort ogLe optional_utxos).reverse
  match bnbLoop sorted target cost_of_change BNB_TOTAL_TRIES ⟨[], 0, available_value, [], none⟩ with
  | .noMatchExit => .error .bnbNoExactMatch
  | .exactMatch best | .budgetExhausted best _ | .spaceExhausted best _ =>
    if best = [] then .error .bnbTotalTriesExceeded
    else
      let selected_utxos := bnbSelected sorted best
      .ok (selected_utxos, feeSum selected_utxos)

/-- Default change output size of `BranchAndBoundCoinSelection`: value
(8 bytes) + script len (1 byte) + P2WPKH script (22 bytes). -/
def BranchAndBoundCoinSelection.defaultSizeOfChange : Nat := 8 + 1 + 22

/-- Branch-and-bound strategy packaged with the randomized fallback, exactly
as the orchestrator combines them: if `BranchAndBoundCoinSelection`
fails, rerun `SingleRandomDrawCoinSelection` on the same pool, target and
rate. -/
def bnbWithFallback (size_of_change : Nat) (shuffle : List OutputGroup → List OutputGroup)
    (database : Database) (optional_utxos : List OutputGroup) (fee_rate : FeeRate)
    (target_amount : Nat) (available_value : Int) : Except Error (List OutputGroup × Nat) :=
  match BranchAndBoundCoinSelection.coin_select size_of_change database optional_utxos
      fee_rate target_amount available_value with
  | .ok selection => .ok selection
  | .error _ => SingleRandomDrawCoinSelection.coin_select shuffle database optional_utxos
      fee_rate target_amount available_value

/-- get_selection: build output groups for every required utxo and for the
optional utxos with strictly positive effective value; fail with
`InsufficientFunds` when the summed effective values cannot reach the target;
return the required groups alone when their effective value strictly exceeds
the target; otherwise run the strategy on the optional groups against the
reduced target (falling back to single random draw on strategy failure) and
append the required groups; finally compute the excess (change decision) and
the waste score and assemble the result.  The `shuffle` parameter is the
randomness injected into the fallback strategy. -/
def get_selection (algorithm : Algorithm) (database : Database)
    (required_utxos : List WeightedUtxo) (optional_utxos : List WeightedUtxo)
    (fee_rate : FeeRate) (target_amount : Nat) (weighted_drain_script : WeightedScript)
    (shuffle : List OutputGroup → List OutputGroup) : Except Error CoinSelectionResult :=
  let required_ogs := required_utxos.map (fun u => OutputGroup.new u fee_rate)
  let optional_ogs :=
    (optional_utxos.map (fun u => OutputGroup.new u fee_rate)).filter
      (fun u => 0 < u.effective_value)
  let required_effective_value := effSum required_ogs
  let required_fees := feeSum required_ogs
  let optional_effective_value := effSum optional_ogs
  let optional_fees := feeSum optional_ogs
  if optional_effective_value + required_effective_value < (target_amount : Int) then
    .error (.insufficientFunds (target_amount + (optional_fees + required_fees))
      (valSum required_ogs + valSum optional_ogs))
  else
    let selectionStep : Except Error (List OutputGroup × Int × Nat) :=
      if (target_amount : Int) < required_effective_value then
        .ok (required_ogs, required_effective_value, required_fees)
      else
        let reduced_target := ((target_amount : Int) - required_effective_value).toNat
        let strategyResult : Except Error (List OutputGroup × Nat) :=
          match algorithm database optional_ogs fee_rate reduced_target
              optional_effective_value with
          | .ok selection => .ok selection
          | .error _ =>
            SingleRandomDrawCoinSelection.coin_select shuffle database optional_ogs
              fee_rate reduced_target optional_effective_value
        match strategyResult with
        | .error e => .error e
        | .ok (selected_utxos, selected_fees) =>
          .ok (selected_utxos ++ required_ogs,
            effSum selected_utxos + required_effective_value,
            selected_fees + required_fees)
    match selectionStep with
    | .error e => .error e
    | .ok (selected_output_groups, effective_value, fee_amount) =>
      let effective_value_u64 : Nat := (effective_value.emod (2 ^ 64)).toNat
      let remaining_amount := effective_value_u64 - target_amount
      let excess := decide_change remaining_amount fee_rate weighted_drain_script.script_pubkey
      match Waste.calculate selected_output_groups weighted_drain_script.satisfaction_weight
          excess with
      | .error e => .error e
      | .ok waste =>
        .ok { selected := selected_output_groups.map (·.weighted_utxo.utxo)
              fee_amount := fee_amount
              excess := excess
              waste := waste }

/-- Selected value encoded by a (reversed) decision stack: the head of the
stack decides the group at index `length - 1` of the pool, so the entry at
the head of a stack of length `k+1` contributes the effective value of the
group at index `k` when it is an inclusion. -/
def selSumR (utxos : List OutputGroup) : List Bool → Int
  | [] => 0
  | b :: rest => selSumR utxos rest + (if b then effAt utxos rest.length else 0)

/-- Invariant of the recorded best selection in any state the loop continues
from: its length is bounded by the pool, nothing is recorded exactly when the
decision vector is empty, and a recorded value is the selected value of the
recorded vector and strictly exceeds the target (an exact match exits the
loop in the iteration that records it, so it never persists in a state). -/
def BestInv (utxos : List OutputGroup) (target_amount : Int)
    (best : List Bool) (bestValue : Option Int) : Prop :=
  best.length ≤ utxos.length ∧
  (bestValue = none → best = []) ∧
  (∀ w, bestValue = some w → w = selSumR utxos best ∧ target_amount < w)

/-- Loop invariant of the branch-and-bound search: the decision stack covers
a prefix of the pool, the running selected value is the sum encoded by the
stack, the available value is the sum over the undecided suffix, and the
recorded best satisfies its invariant. -/
def BnbInv (utxos : List OutputGroup) (target_amount : Int) (s : BnbState) : Prop :=
  s.current_selection.length ≤ utxos.length ∧
  s.selected_value = selSumR utxos s.current_selection ∧
  s.available_value = effSum (utxos.drop s.current_selection.length) ∧
  BestInv utxos target_amount s.best_selection s.best_selection_value

/-- What each exit of the branch-and-bound loop guarantees. -/
def BnbExitInv (utxos : List OutputGroup) (target_amount : Int) : BnbExit → Prop
  | .exactMatch best => best.length ≤ utxos.length ∧ selSumR utxos best = target_amount
  | .budgetExhausted best bestValue => BestInv utxos target_amount best bestValue
  | .spaceExhausted best bestValue =>
      BestInv utxos target_amount best bestValue ∧ best ≠ []
  | .noMatchExit => True

/-! ## Characterization of the numeric model -/

/-- ceilDiv computes the rational ceiling of `n / d`. -/
theorem ceilDiv_eq_ceil (n : ℤ) (d : ℕ) : ceilDiv n d = ⌈(n : ℚ) / (d : ℚ)⌉ := by
  have h : ((n : ℚ) / (d : ℚ)) = -(((-n : ℤ) : ℚ) / (d : ℚ)) := by push_cast; ring
  rw [h, Int.ceil_neg, Rat.floor_intCast_div_natCast]
  rfl

/-- fee_vb is the ceiling of the rate times the virtual byte size, as the
spec prescribes. -/
theorem FeeRate.fee_vb_eq_ceil (r : FeeRate) (vb : Nat) :
    r.fee_vb vb = (⌈r.sat_per_vb * (vb : ℚ)⌉).toNat := by
  have hmul : r.sat_per_vb * (vb : ℚ) =
      ((r.sat_per_vb.num * vb : ℤ) : ℚ) / ((r.sat_per_vb.den : ℕ) : ℚ) := by
    conv_lhs => rw [← Rat.num_div_den r.sat_per_vb]
    push_cast
    ring
  rw [FeeRate.fee_vb, hmul, ceilDiv_eq_ceil]

/-- The branch-and-bound cost of change is the floor of the configured change
output size times the rate (the nonnegative-rate reading of the Rust `f32`
product truncated to an integer). -/
theorem bnb_cost_of_change_eq_floor (r : FeeRate) (size_of_change : Nat) :
    (r.sat_per_vb.num * size_of_change).ediv r.sat_per_vb.den =
      ⌊(size_of_change : ℚ) * r.sat_per_vb⌋ := by
  have hmul : (size_of_change : ℚ) * r.sat_per_vb =
      ((r.sat_per_vb.num * size_of_change : ℤ) : ℚ) / ((r.sat_per_vb.den : ℕ) : ℚ) := by
    conv_lhs => rw [← Rat.num_div_den r.sat_per_vb]
    push_cast
    ring
  rw [hmul, Rat.floor_intCast_div_natCast]
  rfl

/-! ## Claim C6: the change decision -/

/-- Claim C6: for every remaining amount, fee rate, and drain script,
`decide_change` computes the change fee over the serialized script length
plus 8 bytes and the drain value as the remaining amount saturating-minus
the change fee; it returns `NoChange` (carrying the script's dust threshold,
the change fee, and the original remaining amount unmodified) exactly when
the drain value is below the script's dust threshold, and otherwise returns
`Change` with amount exactly the remaining amount minus the change fee and
fee the change fee. -/
theorem claim_C6 (remaining_amount : Nat) (fee_rate : FeeRate) (drain_script : Script) :
    (∀ dust rem cf,
      decide_change remaining_amount fee_rate drain_script = .noChange dust rem cf ↔
        (remaining_amount - fee_rate.fee_vb (drain_script.ser_len + 8) <
            drain_script.dust_value ∧
          dust = drain_script.dust_value ∧ rem = remaining_amount ∧
          cf = fee_rate.fee_vb (drain_script.ser_len + 8))) ∧
    (∀ amount cf,
      decide_change remaining_amount fee_rate drain_script = .change amount cf ↔
        (drain_script.dust_value ≤
            remaining_amount - fee_rate.fee_vb (drain_script.ser_len + 8) ∧
          amount = remaining_amount - fee_rate.fee_vb (drain_script.ser_len + 8) ∧
          cf = fee_rate.fee_vb (drain_script.ser_len + 8))) := by
  by_cases h : remaining_amount - fee_rate.fee_vb (drain_script.ser_len + 8) <
      drain_script.dust_value
  · constructor
    · intro dust rem cf
      simp [decide_change, h, eq_comm, and_comm]
    · intro amount cf
      simp [decide_change, h, Nat.not_le.mpr h]
  · constructor
    · intro dust rem cf
      simp [decide_change, h]
    · intro amount cf
      simp [decide_change, h, Nat.le_of_not_lt h, eq_comm]

/-! ## Claim C9: zero waste at the long-term rate with no remainder -/

/-- Timing-cost fold of `Waste.calculate` leaves the accumulator unchanged
when every selected group's stored fee equals its long-term fee. -/
theorem waste_timing_fold_eq (selected : List OutputGroup) (acc : Int)
    (h : ∀ g ∈ selected,
      g.fee = LONG_TERM_FEE_RATE.fee_wu (TXIN_BASE_WEIGHT + g.weighted_utxo.satisfaction_weight)) :
    selected.foldl
      (fun acc utxo =>
        acc + (utxo.fee : Int) -
          (LONG_TERM_FEE_RATE.fee_wu
            (TXIN_BASE_WEIGHT + utxo.weighted_utxo.satisfaction_weight) : Int))
      acc = acc := by
  induction selected generalizing acc with
  | nil => rfl
  | cons g rest ih =>
    have hg := h g (List.mem_cons_self g rest)
    have hrest : ∀ x ∈ rest,
        x.fee = LONG_TERM_FEE_RATE.fee_wu (TXIN_BASE_WEIGHT + x.weighted_utxo.satisfaction_weight) :=
      fun x hx => h x (List.mem_cons_of_mem g hx)
    simp only [List.foldl_cons]
    rw [hg]
    have : acc + (LONG_TERM_FEE_RATE.fee_wu (TXIN_BASE_WEIGHT + g.weighted_utxo.satisfaction_weight) : Int) -
        (LONG_TERM_FEE_RATE.fee_wu (TXIN_BASE_WEIGHT + g.weighted_utxo.satisfaction_weight) : Int) = acc := by
      ring
    rw [this]
    exact ih acc hrest

/-- Claim C9: for every selection whose output groups were costed at a fee
rate equal to the long-term reference rate, together with a `NoChange`
excess whose remaining amount is zero, `Waste.calculate` returns exactly
waste 0 (zero timing cost and zero creation cost). -/
theorem claim_C9 (selected : List OutputGroup) (drain_script_weight : Nat)
    (dust_threshold change_fee : Nat)
    (h : ∀ g ∈ selected, g = OutputGroup.new g.weighted_utxo LONG_TERM_FEE_RATE) :
    Waste.calculate selected drain_script_weight
      (.noChange dust_threshold 0 change_fee) = .ok ⟨0⟩ := by
  have hfee : ∀ g ∈ selected,
      g.fee = LONG_TERM_FEE_RATE.fee_wu (TXIN_BASE_WEIGHT + g.weighted_utxo.satisfaction_weight) := by
    intro g hg
    conv_lhs => rw [h g hg]
    rfl
  unfold Waste.calculate
  rw [waste_timing_fold_eq selected 0 hfee]
  rfl

/-- Witness for claim C9 at a concrete selection costed at the long-term rate. -/
theorem claim_C9_witness :
    Waste.calculate [OutputGroup.new ⟨272, ⟨7, 100000⟩⟩ LONG_TERM_FEE_RATE] 107
      (.noChange 330 0 55) = .ok ⟨0⟩ :=
  claim_C9 [OutputGroup.new ⟨272, ⟨7, 100000⟩⟩ LONG_TERM_FEE_RATE] 107 330 55
    (by decide)

/-! ## Sum helper lemmas -/

theorem effSum_nil : effSum [] = 0 := rfl

theorem effSum_cons (g : OutputGroup) (l : List OutputGroup) :
    effSum (g :: l) = g.effective_value + effSum l := by
  simp [effSum]

theorem effSum_append (l1 l2 : List OutputGroup) :
    effSum (l1 ++ l2) = effSum l1 + effSum l2 := by
  simp [effSum]

theorem feeSum_cons (g : OutputGroup) (l : List OutputGroup) :
    feeSum (g :: l) = g.fee + feeSum l := by
  simp [feeSum]

theorem valSum_cons (g : OutputGroup) (l : List OutputGroup) :
    valSum (g :: l) = g.weighted_utxo.utxo.value + valSum l := by
  simp [valSum]

theorem effSum_perm {l1 l2 : List OutputGroup} (h : List.Perm l1 l2) : effSum l1 = effSum l2 := by
  unfold effSum
  exact (h.map (·.effective_value)).sum_eq

/-! ## The greedy accumulation pass (largest-first and oldest-first) -/

/-- Characterization of `selectSortedGo`: the result is a prefix `take k` of
the input; the returned fee is the accumulated fee over that prefix; every
shorter prefix still had its running value below the target plus its own
accumulated fees (so each group was taken exactly while that condition
held); and the pass stopped either by exhausting the input or at the first
point where the running value reached the target plus accumulated fees. -/
theorem selectSortedGo_spec (t : Nat) :
    ∀ (l : List OutputGroup) (sel fee : Nat),
    ∃ k, k ≤ l.length ∧ (selectSortedGo t l sel fee).1 = l.take k ∧
      (selectSortedGo t l sel fee).2 = fee + feeSum (l.take k) ∧
      (∀ j, j < k → sel + valSum (l.take j) < t + fee + feeSum (l.take j)) ∧
      (k = l.length ∨ t + fee + feeSum (l.take k) ≤ sel + valSum (l.take k)) := by
  intro l
  induction l with
  | nil =>
    intro sel fee
    exact ⟨0, by simp [selectSortedGo, feeSum]⟩
  | cons og rest ih =>
    intro sel fee
    by_cases h : sel < t + fee
    · obtain ⟨k, hk, h1, h2, h3, h4⟩ :=
        ih (sel + og.weighted_utxo.utxo.value) (fee + og.fee)
      refine ⟨k + 1, by simpa using Nat.succ_le_succ hk, ?_, ?_, ?_, ?_⟩
      · simp only [selectSortedGo, if_pos h, List.take_succ_cons]
        exact congrArg (og :: ·) h1
      · simp only [selectSortedGo, if_pos h, List.take_succ_cons, feeSum_cons]
        omega
      · intro j hj
        match j with
        | 0 => simpa [feeSum, valSum] using h
        | j + 1 =>
          have := h3 j (by omega)
          simp only [List.take_succ_cons, feeSum_cons, valSum_cons]
          omega
      · rcases h4 with h4 | h4
        · left; simp only [List.length_cons]; omega
        · right
          simp only [List.take_succ_cons, feeSum_cons, valSum_cons]
          omega
    · refine ⟨0, Nat.zero_le _, ?_, ?_, by omega, Or.inr (by simp [feeSum, valSum]; omega)⟩
      · simp [selectSortedGo, if_neg h]
      · simp [selectSortedGo, if_neg h, feeSum]

/-! ## Claim C8: largest-first takes the shortest sufficient prefix -/

/-- Claim C8: `LargestFirstCoinSelection.coin_select` sorts the optional
groups descending by effective value and returns exactly the shortest prefix
of that order whose accumulated raw value reaches the target plus the fees
accumulated over the prefix — a group is taken exactly while the running
selected value is still below the target plus accumulated fees (if even the
whole pool does not suffice the whole pool is returned, the feasibility
check being the orchestrator's job) — and it never returns an error. -/
theorem claim_C8 (database : Database) (optional_utxos : List OutputGroup)
    (fee_rate : FeeRate) (target_amount : Nat) (available_value : Int) :
    ∃ selected fee k,
      LargestFirstCoinSelection.coin_select database optional_utxos fee_rate
        target_amount available_value = .ok (selected, fee) ∧
      List.Perm (List.insertionSort ogLe optional_utxos).reverse optional_utxos ∧
      List.Sorted (fun a b => b.effective_value ≤ a.effective_value)
        (List.insertionSort ogLe optional_utxos).reverse ∧
      k ≤ optional_utxos.length ∧
      selected = ((List.insertionSort ogLe optional_utxos).reverse).take k ∧
      fee = feeSum selected ∧
      (∀ j, j < k →
        valSum (((List.insertionSort ogLe optional_utxos).reverse).take j) <
          target_amount + feeSum (((List.insertionSort ogLe optional_utxos).reverse).take j)) ∧
      (k = optional_utxos.length ∨
        target_amount + feeSum selected ≤ valSum selected) := by
  obtain ⟨k, hk, h1, h2, h3, h4⟩ :=
    selectSortedGo_spec target_amount (List.insertionSort ogLe optional_utxos).reverse 0 0
  have hperm : List.Perm (List.insertionSort ogLe optional_utxos).reverse optional_utxos :=
    (List.reverse_perm _).trans (List.perm_insertionSort ogLe optional_utxos)
  have hlen : (List.insertionSort ogLe optional_utxos).reverse.length = optional_utxos.length :=
    hperm.length_eq
  refine ⟨(selectSortedGo target_amount (List.insertionSort ogLe optional_utxos).reverse 0 0).1,
    (selectSortedGo target_amount (List.insertionSort ogLe optional_utxos).reverse 0 0).2,
    k, rfl, hperm, ?_, hlen ▸ hk, h1, by simpa [h1] using h2, fun j hj => by simpa using h3 j hj, ?_⟩
  · exact (List.pairwise_reverse).mpr (List.sorted_insertionSort ogLe optional_utxos)
  · rcases h4 with h4 | h4
    · exact Or.inl (hlen ▸ h4)
    · exact Or.inr (by simpa [h1] using h4)

/-! ## Claims around the single random draw strategy -/

/-- Accumulation pass of the single random draw: either the whole pool is
taken, or the accumulated effective value of the taken groups reaches the
target. -/
theorem srdScan_cover (t : Int) :
    ∀ (l : List OutputGroup) (acc : Int),
      srdScan t l acc = l ∨ t ≤ acc + effSum (srdScan t l acc) := by
  intro l
  induction l with
  | nil => intro acc; exact Or.inl rfl
  | cons u rest ih =>
    intro acc
    by_cases h : t ≤ acc
    · right
      simp only [srdScan, if_pos h, effSum_nil]
      omega
    · rcases ih (acc + u.effective_value) with h1 | h1
      · left
        simp only [srdScan, if_neg h, h1]
      · right
        simp only [srdScan, if_neg h, effSum_cons]
        omega

/-- Accumulation pass of the single random draw over a nonnegative pool whose
total effective value is below the target: everything is taken. -/
theorem srdScan_all (t : Int) :
    ∀ (l : List OutputGroup) (acc : Int), (∀ g ∈ l, 0 ≤ g.effective_value) →
      acc + effSum l < t → srdScan t l acc = l := by
  intro l
  induction l with
  | nil => intro acc _ _; rfl
  | cons u rest ih =>
    intro acc hpos hlt
    have hu : 0 ≤ u.effective_value := hpos u (List.mem_cons_self u rest)
    have hrestpos : ∀ g ∈ rest, 0 ≤ g.effective_value :=
      fun g hg => hpos g (List.mem_cons_of_mem u hg)
    have hrestsum : 0 ≤ effSum rest := by
      clear hlt ih hpos hu
      induction rest with
      | nil => simp [effSum_nil]
      | cons x xs ihx =>
        have := hrestpos x (List.mem_cons_self x xs)
        have h2 := ihx (fun g hg => hrestpos g (List.mem_cons_of_mem x hg))
        rw [effSum_cons]
        omega
    rw [effSum_cons] at hlt
    have hacc : ¬ t ≤ acc := by omega
    simp only [srdScan, if_neg hacc]
    exact congrArg (u :: ·) (ih (acc + u.effective_value) hrestpos (by omega))

/-- Claim C10: `SingleRandomDrawCoinSelection.coin_select` returns `Ok` on
every input, and over a pool of nonnegative effective values (as delivered
by the orchestrator, which filters optional coins to strictly positive
effective value) whose shuffled total is below the target, it returns the
entire shuffled pool — an under-funded selection rather than an
insufficiency error, so the orchestrator's fallback path can never itself
raise `InsufficientFunds`. -/
theorem claim_C10 (shuffle : List OutputGroup → List OutputGroup) (database : Database)
    (optional_utxos : List OutputGroup) (fee_rate : FeeRate) (target_amount : Nat)
    (available_value : Int) :
    (∃ selected fee,
      SingleRandomDrawCoinSelection.coin_select shuffle database optional_utxos fee_rate
        target_amount available_value = .ok (selected, fee)) ∧
    ((∀ g ∈ shuffle optional_utxos, 0 ≤ g.effective_value) →
      effSum (shuffle optional_utxos) < (target_amount : Int) →
      SingleRandomDrawCoinSelection.coin_select shuffle database optional_utxos fee_rate
        target_amount available_value =
        .ok (shuffle optional_utxos, feeSum (shuffle optional_utxos))) := by
  constructor
  · exact ⟨_, _, rfl⟩
  · intro hpos hlt
    have hall := srdScan_all (target_amount : Int) (shuffle optional_utxos) 0 hpos (by omega)
    simp only [SingleRandomDrawCoinSelection.coin_select, hall]

/-- Witness for claim C10: a one-coin pool with effective value 1 against
target 5 is returned whole. -/
theorem claim_C10_witness :
    SingleRandomDrawCoinSelection.coin_select id (fun _ => none) [⟨⟨0, ⟨0, 3⟩⟩, 2, 1⟩] ⟨1⟩ 5 1 =
      .ok ([⟨⟨0, ⟨0, 3⟩⟩, 2, 1⟩], 2) :=
  (claim_C10 id (fun _ => none) [⟨⟨0, ⟨0, 3⟩⟩, 2, 1⟩] ⟨1⟩ 5 1).2 (by decide) (by decide)

/-! ## Branch-and-bound: loop invariants -/

/-- effAt at an in-bounds index is the effective value of the group there. -/
theorem effAt_eq_getElem (u : List OutputGroup) (i : Nat) (h : i < u.length) :
    effAt u i = u[i].effective_value := by
  simp [effAt, List.getElem?_eq_getElem h]

/-- Splitting the undecided suffix sum at an in-bounds index. -/
theorem effSum_drop_eq (u : List OutputGroup) (i : Nat) (h : i < u.length) :
    effSum (u.drop i) = effAt u i + effSum (u.drop (i + 1)) := by
  rw [List.drop_eq_getElem_cons h, effSum_cons, effAt_eq_getElem u i h]

/-- Zipping truncates the longer left list to the length of the right one. -/
theorem zip_truncate {α β : Type} : ∀ (u : List α) (r : List β),
    u.zip r = (u.take r.length).zip r
  | [], _ => by simp
  | _ :: _, [] => by simp
  | a :: u, b :: r => by
    simp only [List.zip_cons_cons, List.length_cons, List.take_succ_cons]
    exact congrArg ((a, b) :: ·) (zip_truncate u r)

/-- The effective value selected by a decision vector equals the running
selected value the loop tracks for it. -/
theorem effSum_bnbSelected : ∀ (u : List OutputGroup) (b : List Bool),
    b.length ≤ u.length → effSum (bnbSelected u b) = selSumR u b
  | u, [], _ => by simp [bnbSelected, effSum_nil, selSumR]
  | u, x :: rest, h => by
    have hk : rest.length < u.length := by
      simpa using Nat.lt_of_lt_of_le (Nat.lt_succ_self rest.length) h
    have htake : (u.take rest.length).length = rest.length := by
      simp [Nat.le_of_lt hk]
    have hsplit : u.zip ((x :: rest).reverse) =
        (u.take rest.length).zip rest.reverse ++ (u.drop rest.length).zip [x] := by
      conv_lhs => rw [show u = u.take rest.length ++ u.drop rest.length from
        (List.take_append_drop rest.length u).symm]
      rw [List.reverse_cons]
      exact List.zip_append (by simp [htake])
    have hdropzip : (u.drop rest.length).zip [x] = [(u[rest.length], x)] := by
      rw [List.drop_eq_getElem_cons hk]
      rw [List.zip_cons_cons, List.zip_nil_right]
    have hIH : effSum (bnbSelected u rest) = selSumR u rest :=
      effSum_bnbSelected u rest (Nat.le_of_lt hk)
    have hzipIH : u.zip rest.reverse = (u.take rest.length).zip rest.reverse := by
      have := zip_truncate u rest.reverse
      simpa using this
    unfold bnbSelected
    rw [hsplit, List.filterMap_append, effSum_append, hdropzip]
    unfold bnbSelected at hIH
    rw [hzipIH] at hIH
    rw [hIH]
    cases x <;>
      simp [selSumR, List.filterMap, effSum_cons, effSum_nil,
        effAt_eq_getElem u rest.length hk]

/-- popFalses preserves the encoded selected value, shrinks the stack,
maintains the undecided-suffix sum, and stops at an inclusion (or empties
the stack). -/
theorem popFalses_spec (u : List OutputGroup) : ∀ (cs : List Bool) (avail : Int),
    cs.length ≤ u.length → avail = effSum (u.drop cs.length) →
    (popFalses u cs avail).1.length ≤ cs.length ∧
    selSumR u (popFalses u cs avail).1 = selSumR u cs ∧
    (popFalses u cs avail).2 = effSum (u.drop (popFalses u cs avail).1.length) ∧
    ((popFalses u cs avail).1 = [] ∨ ∃ rest, (popFalses u cs avail).1 = true :: rest)
  | [], avail, _, ha => ⟨Nat.le_refl _, rfl, ha, Or.inl rfl⟩
  | true :: rest, avail, _, ha => ⟨Nat.le_refl _, rfl, ha, Or.inr ⟨rest, rfl⟩⟩
  | false :: rest, avail, hlen, ha => by
    have hk : rest.length < u.length := by
      simpa using Nat.lt_of_lt_of_le (Nat.lt_succ_self rest.length) hlen
    have ha2 : avail + effAt u rest.length = effSum (u.drop rest.length) := by
      rw [effSum_drop_eq u rest.length hk]
      simp only [List.length_cons] at ha
      omega
    have h := popFalses_spec u rest (avail + effAt u rest.length) (Nat.le_of_lt hk) ha2
    refine ⟨?_, ?_, ?_, h.2.2.2⟩
    · show (popFalses u rest (avail + effAt u rest.length)).1.length ≤ rest.length + 1
      exact Nat.le_succ_of_le h.1
    · show selSumR u (popFalses u rest (avail + effAt u rest.length)).1 =
        selSumR u (false :: rest)
      rw [h.2.1]
      simp [selSumR]
    · exact h.2.2.1

/-- Backtracking step: from an invariant state it either reaches another
invariant state or exits with its exit guarantee. -/
theorem bnbBacktrack_spec (u : List OutputGroup) (t : Int) (s : BnbState)
    (hinv : BnbInv u t s) :
    (∀ s1, bnbBacktrack u s = .inl s1 → BnbInv u t s1) ∧
    (∀ e, bnbBacktrack u s = .inr e → BnbExitInv u t e) := by
  obtain ⟨hlen, hsel, havail, hbest⟩ := hinv
  obtain ⟨hplen, hpsel, hpavail, hphead⟩ :=
    popFalses_spec u s.current_selection s.available_value hlen havail
  rcases hp : popFalses u s.current_selection s.available_value with ⟨cs1, avail1⟩
  rw [hp] at hplen hpsel hpavail hphead
  simp only at hplen hpsel hpavail hphead
  rcases hphead with hnil | ⟨rest, hcons⟩
  · subst hnil
    have hbt : bnbBacktrack u s =
        (if s.best_selection = [] then .inr .noMatchExit
         else .inr (.spaceExhausted s.best_selection s.best_selection_value)) := by
      unfold bnbBacktrack
      simp only [hp]
    rw [hbt]
    constructor
    · intro s1 h1
      by_cases hb : s.best_selection = [] <;> simp [hb] at h1
    · intro e he
      by_cases hb : s.best_selection = []
      · simp only [if_pos hb] at he
        cases he
        trivial
      · simp only [if_neg hb] at he
        cases he
        exact ⟨hbest, hb⟩
  · subst hcons
    have hbt : bnbBacktrack u s = .inl { s with
        current_selection := false :: rest
        selected_value := s.selected_value - effAt u rest.length
        available_value := avail1 } := by
      unfold bnbBacktrack
      simp only [hp]
    rw [hbt]
    constructor
    · intro s1 h1
      cases h1
      have hplen2 : rest.length + 1 ≤ s.current_selection.length := by
        simpa using hplen
      refine ⟨?_, ?_, ?_, hbest⟩
      · show rest.length + 1 ≤ u.length
        exact Nat.le_trans hplen2 hlen
      · show s.selected_value - effAt u rest.length = selSumR u (false :: rest)
        have h1 : selSumR u (true :: rest) = selSumR u rest + effAt u rest.length := by
          simp [selSumR]
        rw [hsel, ← hpsel, h1]
        simp [selSumR]
      · show avail1 = effSum (u.drop (false :: rest).length)
        simpa using hpavail
    · intro e he
      simp at he

/-- Loop body: from an invariant state it either reaches another invariant
state or exits with its exit guarantee. -/
theorem bnbBody_spec (u : List OutputGroup) (t c : Int) (s : BnbState)
    (hinv : BnbInv u t s) :
    (∀ s1, bnbBody u t c s = .inl s1 → BnbInv u t s1) ∧
    (∀ e, bnbBody u t c s = .inr e → BnbExitInv u t e) := by
  obtain ⟨hlen, hsel, havail, hbest⟩ := hinv
  obtain ⟨hblen, hbnone, hbsome⟩ := hbest
  by_cases hprune : s.selected_value + s.available_value < t ∨ t + c < s.selected_value
  · unfold bnbBody
    rw [if_pos hprune]
    exact bnbBacktrack_spec u t s ⟨hlen, hsel, havail, hblen, hbnone, hbsome⟩
  · by_cases hreach : t ≤ s.selected_value
    · by_cases hexact : s.selected_value = t
      · unfold bnbBody
        rw [if_neg hprune, if_pos hreach, if_pos hexact]
        constructor
        · intro s1 h1
          rcases hr : (match s.best_selection_value with
            | none => true
            | some best_value => decide (s.selected_value < best_value)) with _ | _ <;>
            simp [hr] at h1
        · intro e he
          have hrep : (match s.best_selection_value with
              | none => true
              | some best_value => decide (s.selected_value < best_value)) = true := by
            cases hbv : s.best_selection_value with
            | none => rfl
            | some w =>
              have := (hbsome w hbv).2
              simp only [decide_eq_true_eq]
              omega
          rw [if_pos hrep] at he
          cases he
          show s.current_selection.length ≤ u.length ∧ selSumR u s.current_selection = t
          exact ⟨hlen, by rw [← hsel, hexact]⟩
      · unfold bnbBody
        rw [if_neg hprune, if_pos hreach, if_neg hexact]
        have hlt : t < s.selected_value := lt_of_le_of_ne hreach (fun h => hexact h.symm)
        rcases hr : (match s.best_selection_value with
          | none => true
          | some best_value => decide (s.selected_value < best_value)) with _ | _
        · rw [hr]
          have hspec := bnbBacktrack_spec u t s ⟨hlen, hsel, havail, hblen, hbnone, hbsome⟩
          constructor
          · intro s1 h1
            refine hspec.1 s1 ?_
            simpa using h1
          · intro e he
            refine hspec.2 e ?_
            simpa using he
        · rw [hr]
          have hinv1 : BnbInv u t { s with
              best_selection := s.current_selection
              best_selection_value := some s.selected_value } := by
            refine ⟨hlen, hsel, havail, hlen, fun h => ?_, fun w hw => ?_⟩
            · simp at h
            · have hw2 : s.selected_value = w := by simpa using hw
              subst hw2
              exact ⟨hsel, hlt⟩
          have hspec := bnbBacktrack_spec u t
            { s with
              best_selection := s.current_selection
              best_selection_value := some s.selected_value } hinv1
          constructor
          · intro s1 h1
            refine hspec.1 s1 ?_
            simpa using h1
          · intro e he
            refine hspec.2 e ?_
            simpa using he
    · have hltlen : s.current_selection.length < u.length := by
        rcases Nat.lt_or_ge s.current_selection.length u.length with h | h
        · exact h
        · exfalso
          have hdrop : u.drop s.current_selection.length = [] :=
            List.drop_eq_nil_of_le h
          rw [hdrop] at havail
          simp only [effSum_nil] at havail
          rw [havail] at hprune
          push_neg at hprune
          omega
      unfold bnbBody
      rw [if_neg hprune, if_neg hreach]
      constructor
      · intro s1 h1
        cases h1
        refine ⟨?_, ?_, ?_, hblen, hbnone, hbsome⟩
        · show s.current_selection.length + 1 ≤ u.length
          omega
        · show s.selected_value + effAt u s.current_selection.length =
            selSumR u (true :: s.current_selection)
          simp [selSumR, hsel]
        · show s.available_value - effAt u s.current_selection.length =
            effSum (u.drop (true :: s.current_selection).length)
          rw [havail, effSum_drop_eq u s.current_selection.length hltlen]
          simp only [List.length_cons]
          omega
      · intro e he
        simp at he

/-- Loop: from an invariant state, every exit satisfies its guarantee. -/
theorem bnbLoop_spec (u : List OutputGroup) (t c : Int) :
    ∀ (fuel : Nat) (s : BnbState), BnbInv u t s →
      BnbExitInv u t (bnbLoop u t c fuel s)
  | 0, s, hinv => hinv.2.2.2
  | fuel + 1, s, hinv => by
    unfold bnbLoop
    cases hb : bnbBody u t c s with
    | inr e => exact (bnbBody_spec u t c s hinv).2 e hb
    | inl s1 => exact bnbLoop_spec u t c fuel s1 ((bnbBody_spec u t c s hinv).1 s1 hb)

/-- The initial state of the branch-and-bound loop satisfies the invariant
when the caller passes the documented available value (the summed effective
value of the pool). -/
theorem bnbInit_inv (u : List OutputGroup) (t : Int) (available_value : Int)
    (havail : available_value = effSum u) :
    BnbInv u t ⟨[], 0, available_value, [], none⟩ := by
  refine ⟨Nat.zero_le _, rfl, ?_, Nat.zero_le _, fun _ => rfl, fun w hw => by cases hw⟩
  simpa [List.drop_zero] using havail

/-- Soundness of the branch-and-bound strategy: with the documented available
value, any successful selection has summed effective value at least the
target. -/
theorem bnb_coin_select_sound (size_of_change : Nat) (database : Database)
    (optional_utxos : List OutputGroup) (fee_rate : FeeRate) (target_amount : Nat)
    (available_value : Int) (havail : available_value = effSum optional_utxos) :
    ∀ sel fee, BranchAndBoundCoinSelection.coin_select size_of_change database
      optional_utxos fee_rate target_amount available_value = .ok (sel, fee) →
      (target_amount : Int) ≤ effSum sel := by
  intro sel fee hok
  have hperm : List.Perm (List.insertionSort ogLe optional_utxos).reverse optional_utxos :=
    (List.reverse_perm _).trans (List.perm_insertionSort ogLe optional_utxos)
  have hsorted : effSum (List.insertionSort ogLe optional_utxos).reverse = effSum optional_utxos :=
    effSum_perm hperm
  have hinit : BnbInv (List.insertionSort ogLe optional_utxos).reverse (target_amount : Int)
      ⟨[], 0, available_value, [], none⟩ :=
    bnbInit_inv _ _ _ (havail.trans hsorted.symm)
  have hexitinv := bnbLoop_spec (List.insertionSort ogLe optional_utxos).reverse
    (target_amount : Int)
    ((fee_rate.sat_per_vb.num * size_of_change).ediv fee_rate.sat_per_vb.den)
    BNB_TOTAL_TRIES ⟨[], 0, available_value, [], none⟩ hinit
  cases hE : bnbLoop (List.insertionSort ogLe optional_utxos).reverse (target_amount : Int)
      ((fee_rate.sat_per_vb.num * size_of_change).ediv fee_rate.sat_per_vb.den)
      BNB_TOTAL_TRIES ⟨[], 0, available_value, [], none⟩ with
  | noMatchExit =>
    rw [hE] at hexitinv
    simp only [BranchAndBoundCoinSelection.coin_select, hE] at hok
    simp at hok
  | exactMatch b =>
    rw [hE] at hexitinv
    obtain ⟨hblen, hbsum⟩ := hexitinv
    simp only [BranchAndBoundCoinSelection.coin_select, hE] at hok
    by_cases hb : b = []
    · rw [if_pos hb] at hok
      cases hok
    · rw [if_neg hb] at hok
      cases hok
      rw [effSum_bnbSelected _ b hblen, hbsum]
  | budgetExhausted b v =>
    rw [hE] at hexitinv
    obtain ⟨hblen, hbnone, hbsome⟩ := hexitinv
    simp only [BranchAndBoundCoinSelection.coin_select, hE] at hok
    by_cases hb : b = []
    · rw [if_pos hb] at hok
      cases hok
    · rw [if_neg hb] at hok
      cases hok
      cases hv : v with
      | none => exact absurd (hbnone hv) hb
      | some w =>
        obtain ⟨hw1, hw2⟩ := hbsome w hv
        rw [effSum_bnbSelected _ b hblen, ← hw1]
        omega
  | spaceExhausted b v =>
    rw [hE] at hexitinv
    obtain ⟨⟨hblen, hbnone, hbsome⟩, hbne⟩ := hexitinv
    simp only [BranchAndBoundCoinSelection.coin_select, hE] at hok
    by_cases hb : b = []
    · rw [if_pos hb] at hok
      cases hok
    · rw [if_neg hb] at hok
      cases hok
      cases hv : v with
      | none => exact absurd (hbnone hv) hb
      | some w =>
        obtain ⟨hw1, hw2⟩ := hbsome w hv
        rw [effSum_bnbSelected _ b hblen, ← hw1]
        omega

/-- Effective value as raw value minus fee, summed, for well-formed groups
(groups built by `OutputGroup.new` always satisfy the pointwise hypothesis). -/
theorem effSum_eq_val_sub_fee : ∀ (l : List OutputGroup),
    (∀ g ∈ l, g.effective_value = (g.weighted_utxo.utxo.value : Int) - (g.fee : Int)) →
    effSum l = (valSum l : Int) - (feeSum l : Int)
  | [], _ => by simp [effSum_nil, valSum, feeSum]
  | g :: rest, h => by
    have hg := h g (List.mem_cons_self g rest)
    have hrest := effSum_eq_val_sub_fee rest (fun x hx => h x (List.mem_cons_of_mem g hx))
    rw [effSum_cons, valSum_cons, feeSum_cons, hg, hrest]
    push_cast
    ring

/-- Soundness of the greedy accumulation: on a pool of well-formed groups
whose total effective value covers the target, the selected groups' summed
effective value covers the target. -/
theorem select_sorted_utxos_sound (l : List OutputGroup) (target_amount : Nat)
    (hwf : ∀ g ∈ l, g.effective_value = (g.weighted_utxo.utxo.value : Int) - (g.fee : Int))
    (htot : (target_amount : Int) ≤ effSum l) :
    ∀ sel fee, select_sorted_utxos l target_amount = .ok (sel, fee) →
      (target_amount : Int) ≤ effSum sel := by
  intro sel fee hok
  obtain ⟨k, hk, h1, h2, h3, h4⟩ := selectSortedGo_spec target_amount l 0 0
  have hsel : sel = l.take k := by
    have : (selectSortedGo target_amount l 0 0).1 = sel := by
      simpa [select_sorted_utxos] using congrArg
        (fun r => match r with | Except.ok p => p.1 | Except.error _ => []) hok
    rw [← this, h1]
  subst hsel
  rcases h4 with h4 | h4
  · rw [h4, List.take_length]
    exact htot
  · have hwftake : ∀ g ∈ l.take k,
        g.effective_value = (g.weighted_utxo.utxo.value : Int) - (g.fee : Int) :=
      fun g hg => hwf g (List.take_subset k l hg)
    rw [effSum_eq_val_sub_fee (l.take k) hwftake]
    omega

/-- Soundness of the single random draw: over any permutation of a pool
whose total effective value covers the target, the selected groups' summed
effective value covers the target. -/
theorem srd_coin_select_sound (shuffle : List OutputGroup → List OutputGroup)
    (database : Database) (optional_utxos : List OutputGroup) (fee_rate : FeeRate)
    (target_amount : Nat) (available_value : Int)
    (hshuffle : List.Perm (shuffle optional_utxos) optional_utxos)
    (htot : (target_amount : Int) ≤ effSum optional_utxos) :
    ∀ sel fee, SingleRandomDrawCoinSelection.coin_select shuffle database optional_utxos
      fee_rate target_amount available_value = .ok (sel, fee) →
      (target_amount : Int) ≤ effSum sel := by
  intro sel fee hok
  have hsel : sel = srdScan (target_amount : Int) (shuffle optional_utxos) 0 := by
    simpa [SingleRandomDrawCoinSelection.coin_select] using (congrArg
      (fun r => match r with | Except.ok p => p.1 | Except.error _ => []) hok).symm
  subst hsel
  rcases srdScan_cover (target_amount : Int) (shuffle optional_utxos) 0 with h | h
  · rw [h, effSum_perm hshuffle]
    exact htot
  · omega

/-! ## Claim C1: successful selections never under-fund the target -/

/-- Claim C1: over every pool of optional output groups with strictly
positive (well-formed) effective values whose total effective value reaches
the target, each of the four strategies — largest-first, oldest-first,
branch-and-bound with its randomized fallback, and single random draw —
returns a selection whose summed effective value (value net of input fees)
is at least the target: a successful selection never under-funds. -/
theorem claim_C1 (database : Database) (optional_utxos : List OutputGroup)
    (fee_rate : FeeRate) (target_amount : Nat) (size_of_change : Nat)
    (shuffle : List OutputGroup → List OutputGroup)
    (hwf : ∀ g ∈ optional_utxos,
      g.effective_value = (g.weighted_utxo.utxo.value : Int) - (g.fee : Int))
    (_hpos : ∀ g ∈ optional_utxos, 0 < g.effective_value)
    (htot : (target_amount : Int) ≤ effSum optional_utxos)
    (hshuffle : List.Perm (shuffle optional_utxos) optional_utxos) :
    (∀ sel fee, LargestFirstCoinSelection.coin_select database optional_utxos fee_rate
        target_amount (effSum optional_utxos) = .ok (sel, fee) →
      (target_amount : Int) ≤ effSum sel) ∧
    (∀ sel fee, OldestFirstCoinSelection.coin_select database optional_utxos fee_rate
        target_amount (effSum optional_utxos) = .ok (sel, fee) →
      (target_amount : Int) ≤ effSum sel) ∧
    (∀ sel fee, bnbWithFallback size_of_change shuffle database optional_utxos fee_rate
        target_amount (effSum optional_utxos) = .ok (sel, fee) →
      (target_amount : Int) ≤ effSum sel) ∧
    (∀ sel fee, SingleRandomDrawCoinSelection.coin_select shuffle database optional_utxos
        fee_rate target_amount (effSum optional_utxos) = .ok (sel, fee) →
      (target_amount : Int) ≤ effSum sel) := by
  have hlf : ∀ sel fee, LargestFirstCoinSelection.coin_select database optional_utxos fee_rate
      target_amount (effSum optional_utxos) = .ok (sel, fee) →
      (target_amount : Int) ≤ effSum sel := by
    have hperm : List.Perm (List.insertionSort ogLe optional_utxos).reverse optional_utxos :=
      (List.reverse_perm _).trans (List.perm_insertionSort ogLe optional_utxos)
    intro sel fee hok
    refine select_sorted_utxos_sound (List.insertionSort ogLe optional_utxos).reverse
      target_amount (fun g hg => hwf g (hperm.mem_iff.mp hg))
      (by rw [effSum_perm hperm]; exact htot) sel fee hok
  have hof : ∀ sel fee, OldestFirstCoinSelection.coin_select database optional_utxos fee_rate
      target_amount (effSum optional_utxos) = .ok (sel, fee) →
      (target_amount : Int) ≤ effSum sel := by
    have hperm : List.Perm
        (List.insertionSort
          (fun a b => blockheightKey database a ≤ blockheightKey database b) optional_utxos)
        optional_utxos :=
      List.perm_insertionSort _ optional_utxos
    intro sel fee hok
    refine select_sorted_utxos_sound _ target_amount
      (fun g hg => hwf g (hperm.mem_iff.mp hg))
      (by rw [effSum_perm hperm]; exact htot) sel fee hok
  refine ⟨hlf, hof, ?_, fun sel fee hok =>
    srd_coin_select_sound shuffle database optional_utxos fee_rate target_amount
      (effSum optional_utxos) hshuffle htot sel fee hok⟩
  intro sel fee hok
  unfold bnbWithFallback at hok
  cases hB : BranchAndBoundCoinSelection.coin_select size_of_change database optional_utxos
      fee_rate target_amount (effSum optional_utxos) with
  | ok selection =>
    rw [hB] at hok
    cases hok
    exact bnb_coin_select_sound size_of_change database optional_utxos fee_rate target_amount
      (effSum optional_utxos) rfl sel fee hB
  | error e =>
    rw [hB] at hok
    exact srd_coin_select_sound shuffle database optional_utxos fee_rate target_amount
      (effSum optional_utxos) hshuffle htot sel fee hok

/-- Witness for claim C1: on the concrete one-coin pool of effective value 8
against target 5, the largest-first strategy returns a selection covering
the target. -/
theorem claim_C1_witness : (5 : Int) ≤ effSum [⟨⟨0, ⟨0, 10⟩⟩, 2, 8⟩] :=
  (claim_C1 (fun _ => none) [⟨⟨0, ⟨0, 10⟩⟩, 2, 8⟩] ⟨1⟩ 5 31 id
    (by decide) (by decide) (by decide) (by decide)).1 [⟨⟨0, ⟨0, 10⟩⟩, 2, 8⟩] 2 rfl

/-! ## Claim C4 (amended): outcomes of the branch-and-bound search -/

/-- Claim C4, amended: with the documented available value and a strictly
positive target, the branch-and-bound strategy (whose loop structurally
performs at most `BNB_TOTAL_TRIES = 100000` iterations, one per unit of
fuel) ends in exactly one of five outcomes: an exact match is found and
returned (summed effective value equal to the target, stopping early); the
iteration budget is exhausted with a feasible over-target solution recorded,
which is returned; the iteration budget is exhausted with nothing recorded,
yielding `BnBTotalTriesExceeded`; the search space is exhausted (the
decision stack empties) with a feasible over-target solution recorded, which
is returned — the outcome the original claim omits; or the search space is
exhausted with nothing recorded, yielding `BnBNoExactMatch`.  (At target
zero the code instead always reports `BnBTotalTriesExceeded` from the first
iteration, because the recorded exact match is the empty selection, which
the final emptiness check cannot distinguish from "nothing recorded".) -/
theorem claim_C4 (size_of_change : Nat) (database : Database)
    (optional_utxos : List OutputGroup) (fee_rate : FeeRate) (target_amount : Nat)
    (available_value : Int)
    (havail : available_value = effSum optional_utxos)
    (htarget : 1 ≤ target_amount) :
    ∀ exit1 result,
      exit1 = bnbLoop (List.insertionSort ogLe optional_utxos).reverse (target_amount : Int)
        ((fee_rate.sat_per_vb.num * size_of_change).ediv fee_rate.sat_per_vb.den)
        BNB_TOTAL_TRIES ⟨[], 0, available_value, [], none⟩ →
      result = BranchAndBoundCoinSelection.coin_select size_of_change database optional_utxos
        fee_rate target_amount available_value →
      ((∃ b, exit1 = .exactMatch b ∧
          result = .ok (bnbSelected (List.insertionSort ogLe optional_utxos).reverse b,
            feeSum (bnbSelected (List.insertionSort ogLe optional_utxos).reverse b)) ∧
          effSum (bnbSelected (List.insertionSort ogLe optional_utxos).reverse b) =
            (target_amount : Int)) ∨
       (∃ b w, exit1 = .budgetExhausted b (some w) ∧
          result = .ok (bnbSelected (List.insertionSort ogLe optional_utxos).reverse b,
            feeSum (bnbSelected (List.insertionSort ogLe optional_utxos).reverse b)) ∧
          effSum (bnbSelected (List.insertionSort ogLe optional_utxos).reverse b) = w ∧
          (target_amount : Int) < w) ∨
       (exit1 = .budgetExhausted [] none ∧ result = .error .bnbTotalTriesExceeded) ∨
       (∃ b w, exit1 = .spaceExhausted b (some w) ∧ b ≠ [] ∧
          result = .ok (bnbSelected (List.insertionSort ogLe optional_utxos).reverse b,
            feeSum (bnbSelected (List.insertionSort ogLe optional_utxos).reverse b)) ∧
          effSum (bnbSelected (List.insertionSort ogLe optional_utxos).reverse b) = w ∧
          (target_amount : Int) < w) ∨
       (exit1 = .noMatchExit ∧ result = .error .bnbNoExactMatch)) := by
  intro exit1 result hexit hres
  subst hexit
  subst hres
  have hperm : List.Perm (List.insertionSort ogLe optional_utxos).reverse optional_utxos :=
    (List.reverse_perm _).trans (List.perm_insertionSort ogLe optional_utxos)
  have hinit : BnbInv (List.insertionSort ogLe optional_utxos).reverse (target_amount : Int)
      ⟨[], 0, available_value, [], none⟩ :=
    bnbInit_inv _ _ _ (havail.trans (effSum_perm hperm).symm)
  have hexitinv := bnbLoop_spec (List.insertionSort ogLe optional_utxos).reverse
    (target_amount : Int)
    ((fee_rate.sat_per_vb.num * size_of_change).ediv fee_rate.sat_per_vb.den)
    BNB_TOTAL_TRIES ⟨[], 0, available_value, [], none⟩ hinit
  cases hE : bnbLoop (List.insertionSort ogLe optional_utxos).reverse (target_amount : Int)
      ((fee_rate.sat_per_vb.num * size_of_change).ediv fee_rate.sat_per_vb.den)
      BNB_TOTAL_TRIES ⟨[], 0, available_value, [], none⟩ with
  | noMatchExit =>
    refine Or.inr (Or.inr (Or.inr (Or.inr ⟨rfl, ?_⟩)))
    simp only [BranchAndBoundCoinSelection.coin_select, hE]
  | exactMatch b =>
    rw [hE] at hexitinv
    obtain ⟨hblen, hbsum⟩ := hexitinv
    have hbne : b ≠ [] := by
      intro hb
      subst hb
      simp only [selSumR] at hbsum
      omega
    refine Or.inl ⟨b, rfl, ?_, ?_⟩
    · simp only [BranchAndBoundCoinSelection.coin_select, hE, if_neg hbne]
    · rw [effSum_bnbSelected _ b hblen, hbsum]
  | budgetExhausted b v =>
    rw [hE] at hexitinv
    obtain ⟨hblen, hbnone, hbsome⟩ := hexitinv
    cases hv : v with
    | none =>
      have hb : b = [] := hbnone hv
      subst hb
      subst hv
      refine Or.inr (Or.inr (Or.inl ⟨rfl, ?_⟩))
      simp [BranchAndBoundCoinSelection.coin_select, hE]
    | some w =>
      subst hv
      obtain ⟨hw1, hw2⟩ := hbsome w rfl
      have hbne : b ≠ [] := by
        intro hb
        subst hb
        simp only [selSumR] at hw1
        omega
      refine Or.inr (Or.inl ⟨b, w, rfl, ?_, ?_, hw2⟩)
      · simp only [BranchAndBoundCoinSelection.coin_select, hE, if_neg hbne]
      · rw [effSum_bnbSelected _ b hblen, hw1]
  | spaceExhausted b v =>
    rw [hE] at hexitinv
    obtain ⟨⟨hblen, hbnone, hbsome⟩, hbne⟩ := hexitinv
    cases hv : v with
    | none => exact absurd (hbnone hv) hbne
    | some w =>
      subst hv
      obtain ⟨hw1, hw2⟩ := hbsome w rfl
      refine Or.inr (Or.inr (Or.inr (Or.inl ⟨b, w, rfl, hbne, ?_, ?_, hw2⟩)))
      · simp only [BranchAndBoundCoinSelection.coin_select, hE, if_neg hbne]
      · rw [effSum_bnbSelected _ b hblen, hw1]

/-- Witness for amended claim C4 at a concrete input (one coin of effective
value 5, target 3, cost of change 10): the search space is exhausted with
the over-target selection recorded at the second iteration, and that
selection is returned. -/
theorem claim_C4_witness :
    BranchAndBoundCoinSelection.coin_select 2 (fun _ => none) [⟨⟨0, ⟨0, 7⟩⟩, 2, 5⟩] ⟨5⟩ 3 5 =
      .ok ([⟨⟨0, ⟨0, 7⟩⟩, 2, 5⟩], 2) := by
  have hE : bnbLoop (List.insertionSort ogLe [⟨⟨0, ⟨0, 7⟩⟩, 2, 5⟩]).reverse ((3 : Nat) : Int)
      (((FeeRate.mk 5).sat_per_vb.num * (2 : Nat)).ediv (FeeRate.mk 5).sat_per_vb.den)
      BNB_TOTAL_TRIES ⟨[], 0, 5, [], none⟩ = .spaceExhausted [true] (some 5) := by decide
  rcases claim_C4 2 (fun _ => none) [⟨⟨0, ⟨0, 7⟩⟩, 2, 5⟩] ⟨5⟩ 3 5 rfl (by decide) _ _ rfl rfl with
    ⟨b, hb, hres, hsum⟩ | ⟨b, w, hb, hres, hsum, hgt⟩ | ⟨hb, hres⟩ |
    ⟨b, w, hb, hbne, hres, hsum, hgt⟩ | ⟨hb, hres⟩
  · rw [hE] at hb
    cases hb
  · rw [hE] at hb
    cases hb
  · rw [hE] at hb
    cases hb
  · rw [hE] at hb
    injection hb with hb1 hb2
    subst hb1
    rw [hres]
    rfl
  · rw [hE] at hb
    cases hb

/-- Counterexample to claim C4 as originally stated: at the concrete input
(one coin of effective value 5, target 3, cost of change 10) the strategy
returns an over-target selection after only three iterations — the decision
stack empties long before the 100000-iteration budget is exhausted — so the
run matches none of the claim's four outcomes: it is not an exact match
(the returned effective value is 5, not 3), not a success with the budget
exhausted, and not either error. -/
theorem claim_C4_counterexample :
    ¬ ((∃ sel fee,
          BranchAndBoundCoinSelection.coin_select 2 (fun _ => none) [⟨⟨0, ⟨0, 7⟩⟩, 2, 5⟩]
            ⟨5⟩ 3 5 = .ok (sel, fee) ∧ effSum sel = ((3 : Nat) : Int)) ∨
       ((∃ b v, bnbLoop (List.insertionSort ogLe [⟨⟨0, ⟨0, 7⟩⟩, 2, 5⟩]).reverse ((3 : Nat) : Int)
            (((FeeRate.mk 5).sat_per_vb.num * (2 : Nat)).ediv (FeeRate.mk 5).sat_per_vb.den)
            BNB_TOTAL_TRIES ⟨[], 0, 5, [], none⟩ = .budgetExhausted b v) ∧
        (∃ sel fee,
          BranchAndBoundCoinSelection.coin_select 2 (fun _ => none) [⟨⟨0, ⟨0, 7⟩⟩, 2, 5⟩]
            ⟨5⟩ 3 5 = .ok (sel, fee))) ∨
       (BranchAndBoundCoinSelection.coin_select 2 (fun _ => none) [⟨⟨0, ⟨0, 7⟩⟩, 2, 5⟩]
            ⟨5⟩ 3 5 = .error .bnbTotalTriesExceeded ∧
        (∃ b, bnbLoop (List.insertionSort ogLe [⟨⟨0, ⟨0, 7⟩⟩, 2, 5⟩]).reverse ((3 : Nat) : Int)
            (((FeeRate.mk 5).sat_per_vb.num * (2 : Nat)).ediv (FeeRate.mk 5).sat_per_vb.den)
            BNB_TOTAL_TRIES ⟨[], 0, 5, [], none⟩ = .budgetExhausted b none)) ∨
       (BranchAndBoundCoinSelection.coin_select 2 (fun _ => none) [⟨⟨0, ⟨0, 7⟩⟩, 2, 5⟩]
            ⟨5⟩ 3 5 = .error .bnbNoExactMatch ∧
        bnbLoop (List.insertionSort ogLe [⟨⟨0, ⟨0, 7⟩⟩, 2, 5⟩]).reverse ((3 : Nat) : Int)
            (((FeeRate.mk 5).sat_per_vb.num * (2 : Nat)).ediv (FeeRate.mk 5).sat_per_vb.den)
            BNB_TOTAL_TRIES ⟨[], 0, 5, [], none⟩ = .noMatchExit)) := by
  have hres : BranchAndBoundCoinSelection.coin_select 2 (fun _ => none) [⟨⟨0, ⟨0, 7⟩⟩, 2, 5⟩]
      ⟨5⟩ 3 5 = .ok ([⟨⟨0, ⟨0, 7⟩⟩, 2, 5⟩], 2) := rfl
  have hE : bnbLoop (List.insertionSort ogLe [⟨⟨0, ⟨0, 7⟩⟩, 2, 5⟩]).reverse ((3 : Nat) : Int)
      (((FeeRate.mk 5).sat_per_vb.num * (2 : Nat)).ediv (FeeRate.mk 5).sat_per_vb.den)
      BNB_TOTAL_TRIES ⟨[], 0, 5, [], none⟩ = .spaceExhausted [true] (some 5) := by decide
  intro h
  rcases h with ⟨sel, fee, hok, hsum⟩ | ⟨⟨b, v, hb⟩, _⟩ | ⟨herr, _⟩ | ⟨herr, _⟩
  · rw [hres] at hok
    injection hok with hok
    injection hok with hok1 hok2
    subst hok1
    revert hsum
    decide
  · rw [hE] at hb
    cases hb
  · rw [hres] at herr
    cases herr
  · rw [hres] at herr
    cases herr

/-- Backtracking from a state whose encoded selected value is positive never
exits the loop: the stack still holds an inclusion to flip. -/
theorem bnbBacktrack_inl_of_pos (utxos : List OutputGroup) (s : BnbState)
    (hlen : s.current_selection.length ≤ utxos.length)
    (havail : s.available_value = effSum (utxos.drop s.current_selection.length))
    (hpos : 0 < selSumR utxos s.current_selection) :
    ∃ s1, bnbBacktrack utxos s = .inl s1 := by
  obtain ⟨hplen, hpsel, hpavail, hphead⟩ :=
    popFalses_spec utxos s.current_selection s.available_value hlen havail
  rcases hp : popFalses utxos s.current_selection s.available_value with ⟨cs1, avail1⟩
  rw [hp] at hplen hpsel hpavail hphead
  simp only at hplen hpsel hpavail hphead
  rcases hphead with hnil | ⟨rest, hcons⟩
  · subst hnil
    rw [show selSumR utxos [] = 0 from rfl] at hpsel
    omega
  · subst hcons
    refine ⟨{ s with
      current_selection := false :: rest
      selected_value := s.selected_value - effAt utxos rest.length
      available_value := avail1 }, ?_⟩
    unfold bnbBacktrack
    simp only [hp]

/-- Claim C5: in every loop iteration from a reachable state, a backtrack is
triggered exactly when the remaining value cannot reach the target, or the
selection overshot the target by more than the cost of change, or the
selection covers the target; in the covering case the current selection
replaces the recorded best exactly when no best exists yet or the selected
value is strictly below the recorded best value, and the loop stops
immediately exactly when the selected value equals the target; otherwise the
next undecided coin is tentatively included, moving its effective value from
the available amount into the selection. -/
theorem claim_C5 (utxos : List OutputGroup) (target_amount cost_of_change : Int)
    (s : BnbState)
    (ht : 0 ≤ target_amount)
    (hlen : s.current_selection.length ≤ utxos.length)
    (hsel : s.selected_value = selSumR utxos s.current_selection)
    (havail : s.available_value = effSum (utxos.drop s.current_selection.length)) :
    ((s.selected_value + s.available_value < target_amount ∨
        target_amount + cost_of_change < s.selected_value) →
      bnbBody utxos target_amount cost_of_change s = bnbBacktrack utxos s) ∧
    (¬ (s.selected_value + s.available_value < target_amount ∨
        target_amount + cost_of_change < s.selected_value) →
      target_amount ≤ s.selected_value →
      ((s.best_selection_value = none ∨
          (∃ w, s.best_selection_value = some w ∧ s.selected_value < w)) →
        (s.selected_value = target_amount →
          bnbBody utxos target_amount cost_of_change s =
            .inr (.exactMatch s.current_selection)) ∧
        (s.selected_value ≠ target_amount →
          bnbBody utxos target_amount cost_of_change s =
            bnbBacktrack utxos { s with
              best_selection := s.current_selection
              best_selection_value := some s.selected_value } ∧
          ∃ s1, bnbBody utxos target_amount cost_of_change s = .inl s1)) ∧
      ((∃ w, s.best_selection_value = some w ∧ w ≤ s.selected_value) →
        (s.selected_value = target_amount →
          bnbBody utxos target_amount cost_of_change s =
            .inr (.exactMatch s.best_selection)) ∧
        (s.selected_value ≠ target_amount →
          bnbBody utxos target_amount cost_of_change s = bnbBacktrack utxos s ∧
          ∃ s1, bnbBody utxos target_amount cost_of_change s = .inl s1))) ∧
    (¬ (s.selected_value + s.available_value < target_amount ∨
        target_amount + cost_of_change < s.selected_value) →
      s.selected_value < target_amount →
      bnbBody utxos target_amount cost_of_change s =
        .inl { s with
          current_selection := true :: s.current_selection
          selected_value := s.selected_value + effAt utxos s.current_selection.length
          available_value := s.available_value - effAt utxos s.current_selection.length }) := by
  refine ⟨?_, ?_, ?_⟩
  · intro hp
    unfold bnbBody
    rw [if_pos hp]
  · intro hnp hge
    constructor
    · intro hrep
      have hr : (match s.best_selection_value with
          | none => true
          | some best_value => decide (s.selected_value < best_value)) = true := by
        rcases hrep with h | ⟨w, hw, hlt⟩
        · rw [h]
        · rw [hw]
          simpa using hlt
      constructor
      · intro heq
        unfold bnbBody
        rw [if_neg hnp, if_pos hge, hr]
        simp [heq]
      · intro hne
        have hbody : bnbBody utxos target_amount cost_of_change s =
            bnbBacktrack utxos { s with
              best_selection := s.current_selection
              best_selection_value := some s.selected_value } := by
          unfold bnbBody
          rw [if_neg hnp, if_pos hge, hr]
          simp [hne]
        refine ⟨hbody, ?_⟩
        have hpos : 0 < selSumR utxos s.current_selection := by
          have : target_amount < s.selected_value := lt_of_le_of_ne hge (fun h => hne h.symm)
          omega
        obtain ⟨s1, hs1⟩ := bnbBacktrack_inl_of_pos utxos
          { s with
            best_selection := s.current_selection
            best_selection_value := some s.selected_value } hlen havail hpos
        exact ⟨s1, hbody.trans hs1⟩
    · intro hnorep
      obtain ⟨w, hw, hwle⟩ := hnorep
      have hr : (match s.best_selection_value with
          | none => true
          | some best_value => decide (s.selected_value < best_value)) = false := by
        rw [hw]
        simpa using hwle
      constructor
      · intro heq
        unfold bnbBody
        rw [if_neg hnp, if_pos hge, hr]
        simp [heq]
      · intro hne
        have hbody : bnbBody utxos target_amount cost_of_change s = bnbBacktrack utxos s := by
          unfold bnbBody
          rw [if_neg hnp, if_pos hge, hr]
          simp [hne]
        refine ⟨hbody, ?_⟩
        have hpos : 0 < selSumR utxos s.current_selection := by
          have : target_amount < s.selected_value := lt_of_le_of_ne hge (fun h => hne h.symm)
          omega
        obtain ⟨s1, hs1⟩ := bnbBacktrack_inl_of_pos utxos s hlen havail hpos
        exact ⟨s1, hbody.trans hs1⟩
  · intro hnp hlt
    unfold bnbBody
    rw [if_neg hnp, if_neg (by omega : ¬ target_amount ≤ s.selected_value)]

/-- Witness for claim C5 at a concrete reachable state (empty stack, one
undecided coin of effective value 5, target 3): the iteration takes the
forward step, tentatively including the coin. -/
theorem claim_C5_witness :
    bnbBody [⟨⟨0, ⟨0, 7⟩⟩, 2, 5⟩] 3 0 ⟨[], 0, 5, [], none⟩ =
      .inl ⟨[true], 5, 0, [], none⟩ :=
  (claim_C5 [⟨⟨0, ⟨0, 7⟩⟩, 2, 5⟩] 3 0 ⟨[], 0, 5, [], none⟩ (by decide) (by decide)
    (by decide) (by decide)).2.2 (by decide) (by decide)

/-! ## Claim C2 (amended): mandatory coins alone -/

/-- Filtered optional groups have nonnegative summed effective value. -/
theorem effSum_filter_pos_nonneg (l : List OutputGroup) :
    0 ≤ effSum (l.filter (fun u => 0 < u.effective_value)) := by
  unfold effSum
  refine List.sum_nonneg ?_
  intro x hx
  obtain ⟨g, hg, hgx⟩ := List.mem_map.mp hx
  have := List.of_mem_filter hg
  simp only [decide_eq_true_eq] at this
  omega

/-- Claim C2, amended: for every input to `get_selection` whose mandatory
(required) coins' summed effective value strictly exceeds the target amount
(the code tests `required_effective_value > target_amount`, so at exact
equality the strategy is still invoked over the optional pool with a reduced
target of zero), no strategy is consulted: the returned selection is exactly
the mandatory coins and the fee amount is their summed fees. -/
theorem claim_C2 (algorithm : Algorithm) (database : Database)
    (required_utxos optional_utxos : List WeightedUtxo) (fee_rate : FeeRate)
    (target_amount : Nat) (weighted_drain_script : WeightedScript)
    (shuffle : List OutputGroup → List OutputGroup)
    (hgt : (target_amount : Int) <
      effSum (required_utxos.map (fun u => OutputGroup.new u fee_rate))) :
    ∃ r, get_selection algorithm database required_utxos optional_utxos fee_rate
        target_amount weighted_drain_script shuffle = .ok r ∧
      r.selected = required_utxos.map (fun u => u.utxo) ∧
      r.fee_amount = feeSum (required_utxos.map (fun u => OutputGroup.new u fee_rate)) := by
  have hopt := effSum_filter_pos_nonneg
    (optional_utxos.map (fun u => OutputGroup.new u fee_rate))
  have hgate : ¬ (effSum ((optional_utxos.map (fun u => OutputGroup.new u fee_rate)).filter
      (fun u => 0 < u.effective_value)) +
      effSum (required_utxos.map (fun u => OutputGroup.new u fee_rate)) <
      (target_amount : Int)) := by
    omega
  unfold get_selection
  rw [if_neg hgate, if_pos hgt]
  refine ⟨_, rfl, ?_, rfl⟩
  show (required_utxos.map (fun u => OutputGroup.new u fee_rate)).map
    (·.weighted_utxo.utxo) = required_utxos.map (fun u => u.utxo)
  rw [List.map_map]
  rfl

/-- Witness for amended claim C2: mandatory effective value 100 strictly
exceeds target 50, and the selection is exactly the mandatory coin. -/
theorem claim_C2_witness :
    (match get_selection (fun _ ogs _ _ _ => .ok (ogs, feeSum ogs)) (fun _ => none)
        [⟨0, ⟨1, 100⟩⟩] [] ⟨0⟩ 50 ⟨⟨5, 1000⟩, 0⟩ id with
     | .ok r => r.selected
     | .error _ => []) = [⟨1, 100⟩] := by
  obtain ⟨r, hok, hsel, hfee⟩ := claim_C2 (fun _ ogs _ _ _ => .ok (ogs, feeSum ogs))
    (fun _ => none) [⟨0, ⟨1, 100⟩⟩] [] ⟨0⟩ 50 ⟨⟨5, 1000⟩, 0⟩ id (by decide)
  rw [hok]
  exact hsel

/-- Counterexample to claim C2 as stated: when the mandatory effective value
meets the target exactly (100 = 100, the claim's "meets or exceeds"), the
strategy IS invoked over the optional pool with reduced target 0 — with a
spend-everything strategy the returned selection contains the optional coin,
so it does not consist exactly of the mandatory coins.  The code skips the
strategy only on strict excess. -/
theorem claim_C2_counterexample :
    effSum ([(⟨0, ⟨1, 100⟩⟩ : WeightedUtxo)].map (fun u => OutputGroup.new u ⟨0⟩)) =
      ((100 : Nat) : Int) ∧
    get_selection (fun _ ogs _ _ _ => .ok (ogs, feeSum ogs)) (fun _ => none)
      [⟨0, ⟨1, 100⟩⟩] [⟨0, ⟨2, 50⟩⟩] ⟨0⟩ 100 ⟨⟨5, 1000⟩, 0⟩ id =
      .ok ⟨[⟨2, 50⟩, ⟨1, 100⟩], 0, .noChange 1000 50 0, ⟨-350⟩⟩ ∧
    ([⟨2, 50⟩, ⟨1, 100⟩] : List Utxo) ≠ [⟨1, 100⟩] :=
  ⟨by decide, rfl, by decide⟩

/-! ## Claim C3 (amended): the feasibility gate -/

/-- Claim C3, amended: whenever the feasibility gate fails (the summed
effective value of the required groups plus the positively-filtered optional
groups is negative or below the target), `get_selection` returns
`InsufficientFunds` before consulting any strategy, with `needed` the target
plus the summed input fees of the required groups and the positively-filtered
optional groups, and `available` the summed raw coin values of those same
groups — the raw values of optional coins filtered out for non-positive
effective value are NOT counted in `available` (the original claim said "all
available coins"). -/
theorem claim_C3 (algorithm : Algorithm) (database : Database)
    (required_utxos optional_utxos : List WeightedUtxo) (fee_rate : FeeRate)
    (target_amount : Nat) (weighted_drain_script : WeightedScript)
    (shuffle : List OutputGroup → List OutputGroup)
    (hfail : effSum ((optional_utxos.map (fun u => OutputGroup.new u fee_rate)).filter
        (fun u => 0 < u.effective_value)) +
      effSum (required_utxos.map (fun u => OutputGroup.new u fee_rate)) <
      (target_amount : Int)) :
    get_selection algorithm database required_utxos optional_utxos fee_rate target_amount
      weighted_drain_script shuffle =
      .error (.insufficientFunds
        (target_amount +
          (feeSum ((optional_utxos.map (fun u => OutputGroup.new u fee_rate)).filter
            (fun u => 0 < u.effective_value)) +
           feeSum (required_utxos.map (fun u => OutputGroup.new u fee_rate))))
        (valSum (required_utxos.map (fun u => OutputGroup.new u fee_rate)) +
         valSum ((optional_utxos.map (fun u => OutputGroup.new u fee_rate)).filter
           (fun u => 0 < u.effective_value)))) := by
  unfold get_selection
  rw [if_pos hfail]

/-- Witness for amended claim C3: one optional coin of value 5 whose fee is
40 (negative effective value, so it is filtered out) against target 100; the
gate fails and reports needed 100 and available 0. -/
theorem claim_C3_witness :
    get_selection (fun _ ogs _ _ _ => .ok (ogs, feeSum ogs)) (fun _ => none)
      [] [⟨0, ⟨1, 5⟩⟩] ⟨1⟩ 100 ⟨⟨5, 1000⟩, 0⟩ id =
      .error (.insufficientFunds 100 0) :=
  claim_C3 (fun _ ogs _ _ _ => .ok (ogs, feeSum ogs)) (fun _ => none)
    [] [⟨0, ⟨1, 5⟩⟩] ⟨1⟩ 100 ⟨⟨5, 1000⟩, 0⟩ id (by decide)

/-- Counterexample to claim C3 as stated: the same input holds one available
coin of raw value 5 (its effective value at the current rate is negative, so
the orchestrator filters it out), yet the reported `available` is 0, not the
raw-value sum 5 of all available coins; `needed` likewise omits the filtered
coin's fee. -/
theorem claim_C3_counterexample :
    (([(⟨0, ⟨1, 5⟩⟩ : WeightedUtxo)].map (fun u => u.utxo.value)).sum = 5) ∧
    get_selection (fun _ ogs _ _ _ => .ok (ogs, feeSum ogs)) (fun _ => none)
      [] [⟨0, ⟨1, 5⟩⟩] ⟨1⟩ 100 ⟨⟨5, 1000⟩, 0⟩ id =
      .error (.insufficientFunds 100 0) ∧
    (5 : Nat) ≠ 0 :=
  ⟨by decide, rfl, by decide⟩

/-! ## Claim C7: strategy failures trigger the randomized fallback -/

/-- Claim C7: past the feasibility gate, if the chosen strategy fails on the
optional pool (the same filtered groups, reduced target, and fee rate the
orchestrator computes), `get_selection` behaves exactly as if the single
random draw were the chosen strategy — strategy-level errors never reach the
caller — and any error `get_selection` does return is an insufficiency error
from the gate, never a strategy error. -/
theorem claim_C7 (algorithm : Algorithm) (database : Database)
    (required_utxos optional_utxos : List WeightedUtxo) (fee_rate : FeeRate)
    (target_amount : Nat) (weighted_drain_script : WeightedScript)
    (shuffle : List OutputGroup → List OutputGroup) (e : Error)
    (herr : algorithm database
      ((optional_utxos.map (fun u => OutputGroup.new u fee_rate)).filter
        (fun u => 0 < u.effective_value))
      fee_rate
      (((target_amount : Int) -
        effSum (required_utxos.map (fun u => OutputGroup.new u fee_rate))).toNat)
      (effSum ((optional_utxos.map (fun u => OutputGroup.new u fee_rate)).filter
        (fun u => 0 < u.effective_value))) = .error e) :
    get_selection algorithm database required_utxos optional_utxos fee_rate target_amount
      weighted_drain_script shuffle =
    get_selection
      (fun db ogs r t a => SingleRandomDrawCoinSelection.coin_select shuffle db ogs r t a)
      database required_utxos optional_utxos fee_rate target_amount weighted_drain_script
      shuffle ∧
    (∀ err, get_selection algorithm database required_utxos optional_utxos fee_rate
        target_amount weighted_drain_script shuffle = .error err →
      ∃ needed available, err = .insufficientFunds needed available) := by
  by_cases hgate : effSum ((optional_utxos.map (fun u => OutputGroup.new u fee_rate)).filter
      (fun u => 0 < u.effective_value)) +
      effSum (required_utxos.map (fun u => OutputGroup.new u fee_rate)) <
      (target_amount : Int)
  · constructor
    · simp only [get_selection]
      rw [if_pos hgate, if_pos hgate]
    · intro err h
      simp only [get_selection] at h
      rw [if_pos hgate] at h
      injection h with h
      exact ⟨_, _, h.symm⟩
  · by_cases hreq : (target_amount : Int) <
        effSum (required_utxos.map (fun u => OutputGroup.new u fee_rate))
    · constructor
      · simp only [get_selection]
        rw [if_neg hgate, if_neg hgate, if_pos hreq, if_pos hreq]
      · intro err h
        simp only [get_selection] at h
        rw [if_neg hgate, if_pos hreq] at h
        simp only [Waste.calculate] at h
        simp at h
    · constructor
      · simp only [get_selection]
        rw [if_neg hgate, if_neg hgate, if_neg hreq, if_neg hreq, herr]
        rfl
      · intro err h
        simp only [get_selection] at h
        rw [if_neg hgate, if_neg hreq, herr] at h
        simp only [SingleRandomDrawCoinSelection.coin_select, Waste.calculate] at h
        simp at h

/-- Witness for claim C7 at a concrete input: with an always-failing chosen
strategy, `get_selection` coincides with `get_selection` run on the single
random draw strategy. -/
theorem claim_C7_witness :
    get_selection (fun _ _ _ _ _ => .error .bnbNoExactMatch) (fun _ => none)
      [] [⟨0, ⟨1, 300⟩⟩] ⟨0⟩ 100 ⟨⟨5, 10⟩, 0⟩ id =
    get_selection
      (fun db ogs r t a => SingleRandomDrawCoinSelection.coin_select id db ogs r t a)
      (fun _ => none) [] [⟨0, ⟨1, 300⟩⟩] ⟨0⟩ 100 ⟨⟨5, 10⟩, 0⟩ id :=
  (claim_C7 (fun _ _ _ _ _ => .error .bnbNoExactMatch) (fun _ => none) [] [⟨0, ⟨1, 300⟩⟩]
    ⟨0⟩ 100 ⟨⟨5, 10⟩, 0⟩ id .bnbNoExactMatch rfl).1
